import Mathlib

/-!
# Verification of the `tiny-keccak` Keccak sponge engine

This development embeds the `Keccak` hasher of `src/keccak.rs` and the sponge
state machine it delegates to.  The crate items `KeccakState`, `KeccakF` and
`bits_to_rate` are declared in modules that are not part of the provided
sources, so they are modelled from the specification document (each such
definition carries a doc comment starting with `Modelled from the spec:`).
Bytes and 64-bit lanes are represented as `Nat` with explicit reduction
modulo `2 ^ 64` where overflow matters.
-/

namespace TinyKeccak

/-- Modelled from the spec: the 24 round constants of Keccak-f[1600]
(§4.2: "fixed at 24 rounds for the standard 1600-bit width"). -/
def roundConstants : List Nat :=
  [0x0000000000000001, 0x0000000000008082, 0x800000000000808a] ++
    [0x8000000080008000, 0x000000000000808b, 0x0000000080000001] ++
    [0x8000000080008081, 0x8000000000008009, 0x000000000000008a] ++
    [0x0000000000000088, 0x0000000080008009, 0x000000008000000a] ++
    [0x000000008000808b, 0x800000000000008b, 0x8000000000008089] ++
    [0x8000000000008003, 0x8000000000008002, 0x8000000000000080] ++
    [0x000000000000800a, 0x800000008000000a, 0x8000000080008081] ++
    [0x8000000000008080, 0x0000000080000001, 0x8000000080008008]

/-- 64-bit left rotation on `Nat`, truncated to 64 bits. -/
def rotl64 (x n : Nat) : Nat :=
  ((x <<< (n % 64)) ||| (x >>> (64 - n % 64))) % 2 ^ 64

/-- Lane `(x, y)` of a 25-lane state stored row-major (`index = x + 5 * y`). -/
def lane (s : List Nat) (x y : Nat) : Nat :=
  s.getD (x % 5 + 5 * (y % 5)) 0

/-- Modelled from the spec: the theta step of Keccak-f (§4.2). -/
def theta (s : List Nat) : List Nat :=
  (List.range 25).map (fun i =>
    s.getD i 0 ^^^
      (lane s (i % 5 + 4) 0 ^^^ lane s (i % 5 + 4) 1 ^^^ lane s (i % 5 + 4) 2 ^^^
        lane s (i % 5 + 4) 3 ^^^ lane s (i % 5 + 4) 4) ^^^
      rotl64
        (lane s (i % 5 + 1) 0 ^^^ lane s (i % 5 + 1) 1 ^^^ lane s (i % 5 + 1) 2 ^^^
          lane s (i % 5 + 1) 3 ^^^ lane s (i % 5 + 1) 4) 1)

/-- The rho rotation offsets, indexed by `x + 5 * y`. -/
def rhoOffsets : List Nat :=
  [0, 1, 62, 28, 27] ++ [36, 44, 6, 55, 20] ++ [3, 10, 43, 25, 39] ++
    [41, 45, 15, 21, 8] ++ [18, 2, 61, 56, 14]

/-- Modelled from the spec: the combined rho and pi steps of Keccak-f (§4.2).
Output lane `(X, Y)` is the rotated input lane `((X + 3Y) % 5, X)`. -/
def rhoPi (s : List Nat) : List Nat :=
  (List.range 25).map (fun i =>
    rotl64 (lane s (i % 5 + 3 * (i / 5)) (i % 5))
      (rhoOffsets.getD ((i % 5 + 3 * (i / 5)) % 5 + 5 * (i % 5)) 0))

/-- Modelled from the spec: the chi step of Keccak-f (§4.2). -/
def chi (s : List Nat) : List Nat :=
  (List.range 25).map (fun i =>
    s.getD i 0 ^^^ ((lane s (i % 5 + 1) (i / 5) ^^^ (2 ^ 64 - 1)) &&& lane s (i % 5 + 2) (i / 5)))

/-- Modelled from the spec: the iota step of Keccak-f (§4.2): XOR the round
constant into lane (0, 0). -/
def iotaStep (rc : Nat) (s : List Nat) : List Nat :=
  match s with
  | [] => []
  | a :: rest => (a ^^^ rc) :: rest

/-- One round of Keccak-f: theta, rho, pi, chi, iota. -/
def keccakRound (s : List Nat) (rc : Nat) : List Nat :=
  iotaStep rc (chi (rhoPi (theta s)))

/-- Modelled from the spec: the full Keccak-f[1600] permutation, 24 rounds
(§4.2: "deterministic, bijective, fixed at 24 rounds"). -/
def keccakF (s : List Nat) : List Nat :=
  roundConstants.foldl keccakRound s

/-- Pack 8 bytes (little-endian, byte 0 least significant) into one lane. -/
def bytesToLane (bs : List Nat) : Nat :=
  bs.foldr (fun b acc => acc * 256 + b) 0

/-- Unpack one 64-bit lane into its 8 little-endian bytes. -/
def laneToBytes (l : Nat) : List Nat :=
  (List.range 8).map (fun i => l / 256 ^ i % 256)

/-- View a 200-byte state as 25 little-endian 64-bit lanes (§3: both views
address the same storage). -/
def bytesToLanes (bs : List Nat) : List Nat :=
  (List.range 25).map (fun i => bytesToLane ((bs.drop (8 * i)).take 8))

/-- View 25 lanes as their 200-byte little-endian serialization. -/
def lanesToBytes (ls : List Nat) : List Nat :=
  (ls.map laneToBytes).flatten

/-- Modelled from the spec: apply Keccak-f[1600] to the 200-byte state through
the byte/lane dual view (§4.2, §9 "Dual view of the state buffer"). -/
def permuteBytes (bs : List Nat) : List Nat :=
  lanesToBytes (keccakF (bytesToLanes bs))

/-- Modelled from the spec: the sponge state `KeccakState` (§3 SpongeState):
a 200-byte buffer, a cursor `offset`, the `rate` and the domain-separation
`delim` byte. -/
structure KeccakState where
  buffer : List Nat
  offset : Nat
  rate : Nat
  delim : Nat
  deriving DecidableEq, Repr

/-- Modelled from the spec: `new(rate, delimiter)` initializes `buffer` to all
zero bytes and `offset = 0` (§4.1 Construction). -/
def KeccakState.new (rate delim : Nat) : KeccakState :=
  ⟨List.replicate 200 0, 0, rate, delim⟩

/-- Modelled from the spec: `new` with its fail-fast rate precondition
`1 ≤ rate ≤ 200` made explicit (§4.1, §7: an invalid rate is a programming
error that fails fast; `none` models that abort). -/
def KeccakState.newChecked (rate delim : Nat) : Option KeccakState :=
  if 1 ≤ rate ∧ rate ≤ 200 then some (KeccakState.new rate delim) else none

/-- XOR the value `v` into position `i` of `buf`. -/
def setXor (buf : List Nat) (i v : Nat) : List Nat :=
  buf.set i (buf.getD i 0 ^^^ v)

/-- XOR the bytes of `chunk` into `buf` starting at position `off`
(§4.1: "XOR it byte-wise into buffer[offset .. offset+len]"). -/
def xorInto (buf : List Nat) (off : Nat) (chunk : List Nat) : List Nat :=
  match chunk with
  | [] => buf
  | c :: cs => xorInto (setXor buf off c) (off + 1) cs

/-- Modelled from the spec: the absorb loop of `update` (§4.1): walk the input
in chunks that fit the remaining room `rate - offset`, XOR each chunk into the
buffer, advance the offset, and permute and reset the offset whenever the
block is full.  A `rate` of zero (excluded by the construction contract) makes
the loop a no-op. -/
def absorbLoop (rate : Nat) (buf : List Nat) (off : Nat) (input : List Nat) :
    List Nat × Nat :=
  match input with
  | [] => (buf, off)
  | c :: cs =>
    if _h0 : rate = 0 then (buf, off)
    else if _hfull : rate ≤ off then
      absorbLoop rate (permuteBytes buf) 0 (c :: cs)
    else
      if _hfill : rate ≤ off + min (rate - off) (c :: cs).length then
        absorbLoop rate
          (permuteBytes (xorInto buf off ((c :: cs).take (min (rate - off) (c :: cs).length))))
          0 ((c :: cs).drop (min (rate - off) (c :: cs).length))
      else
        (xorInto buf off ((c :: cs).take (min (rate - off) (c :: cs).length)),
          off + min (rate - off) (c :: cs).length)
termination_by 2 * input.length + (if rate ≤ off then 1 else 0)
decreasing_by
  all_goals simp only [List.length_drop, List.length_cons]
  all_goals split_ifs <;> omega

/-- Modelled from the spec: `update(input)` — absorb (§4.1). -/
def KeccakState.update (s : KeccakState) (input : List Nat) : KeccakState :=
  ⟨(absorbLoop s.rate s.buffer s.offset input).1,
   (absorbLoop s.rate s.buffer s.offset input).2, s.rate, s.delim⟩

/-- The padded final block: XOR `delim` into `buffer[offset]` and `0x80` into
`buffer[rate - 1]` (§4.1 finalize, Padding). -/
def padBlock (s : KeccakState) : List Nat :=
  setXor (setXor s.buffer s.offset s.delim) (s.rate - 1) 0x80

/-- Modelled from the spec: the squeeze phase (§4.1 finalize): copy the first
`min(rate, remaining)` bytes of the buffer, permuting again whenever more
output is required. -/
def squeeze (rate : Nat) (buf : List Nat) (outLen : Nat) : List Nat :=
  if outLen ≤ rate then buf.take outLen
  else if _h0 : rate = 0 then []
  else buf.take rate ++ squeeze rate (permuteBytes buf) (outLen - rate)
termination_by outLen
decreasing_by omega

/-- Modelled from the spec: `finalize(output)` — pad, permute once over the
padded block, then squeeze `outLen` bytes (§4.1). -/
def KeccakState.finalize (s : KeccakState) (outLen : Nat) : List Nat :=
  squeeze s.rate (permuteBytes (padBlock s)) outLen

/-- Modelled from the spec: `bits_to_rate` — `rate = 200 − 2·(securityBits/8)`
bytes (§6). -/
def bits_to_rate (bits : Nat) : Nat :=
  200 - 2 * (bits / 8)

/-- The `Keccak` hasher of `src/keccak.rs`: a wrapper around the sponge
state. -/
structure Keccak where
  state : KeccakState
  deriving DecidableEq, Repr

/-- `Keccak::DELIM` (`src/keccak.rs` line 22). -/
def Keccak.DELIM : Nat := 0x01

/-- `Keccak::new(bits)` (`src/keccak.rs` lines 52-56). -/
def Keccak.new (bits : Nat) : Keccak :=
  ⟨KeccakState.new (bits_to_rate bits) Keccak.DELIM⟩

/-- `Keccak::v224()` (`src/keccak.rs`). -/
def Keccak.v224 : Keccak := Keccak.new 224

/-- `Keccak::v256()` (`src/keccak.rs`). -/
def Keccak.v256 : Keccak := Keccak.new 256

/-- `Keccak::v384()` (`src/keccak.rs`). -/
def Keccak.v384 : Keccak := Keccak.new 384

/-- `Keccak::v512()` (`src/keccak.rs`). -/
def Keccak.v512 : Keccak := Keccak.new 512

/-- `Hasher::update` for `Keccak` (`src/keccak.rs` lines 73-75): delegates to
the sponge state. -/
def Keccak.update (k : Keccak) (input : List Nat) : Keccak :=
  ⟨k.state.update input⟩

/-- `Hasher::finalize` for `Keccak` (`src/keccak.rs` lines 91-93): delegates
to the sponge state; the output buffer is modelled by its length. -/
def Keccak.finalize (k : Keccak) (outLen : Nat) : List Nat :=
  k.state.finalize outLen

/-- The lowercase hexadecimal digit for a value below 16 (digits `0`-`9`
start at code point 48, letters `a`-`f` at code point 97). -/
def hexDigit (n : Nat) : Char :=
  if n < 10 then Char.ofNat (48 + n) else Char.ofNat (97 + (n - 10))

/-- Lowercase hexadecimal encoding of a byte list, two digits per byte. -/
def hexEncode (bytes : List Nat) : List Char :=
  (bytes.map (fun b => [hexDigit (b / 16), hexDigit (b % 16)])).flatten

/-- The engine reached from the security-level-`bits` constructor after a
sequence of `update` calls with the given chunks. -/
def reachAfter (bits : Nat) (chunks : List (List Nat)) : Keccak :=
  chunks.foldl Keccak.update (Keccak.new bits)

/-! ## Basic list facts used throughout -/

/-- `getD` after `set`: the updated position reads the new value (when in
range), every other position is untouched. -/
theorem getD_set (l : List Nat) (i j v : Nat) :
    (l.set i v).getD j 0 = if i = j ∧ i < l.length then v else l.getD j 0 := by
  simp only [List.getD_eq_getElem?_getD, List.getElem?_set]
  by_cases hij : i = j
  · subst hij
    by_cases hi : i < l.length
    · simp [hi]
    · simp only [hi, and_false, if_false, if_neg hi]
      rw [List.getElem?_eq_none (by omega)]
      simp
  · simp [hij]

/-- `xorInto` leaves the buffer length unchanged. -/
theorem length_xorInto (chunk : List Nat) :
    ∀ buf off, (xorInto buf off chunk).length = buf.length := by
  induction chunk with
  | nil => intro buf off; rfl
  | cons c cs ih =>
    intro buf off
    simp only [xorInto, ih, setXor, List.length_set]

/-! ## A byte-at-a-time view of absorption

`absorbLoop` walks the input in block-sized chunks.  To reason about
arbitrary splits of the input we re-express it as a left fold of a
single-byte absorption step. -/

/-- Absorb a single byte: normalize a full block (permute, reset the cursor),
XOR the byte at the cursor, and permute again if this fills the block. -/
def absorbByte (rate : Nat) (st : List Nat × Nat) (c : Nat) : List Nat × Nat :=
  if rate = 0 then st
  else if rate ≤ st.2 then
    if 1 = rate then (permuteBytes (setXor (permuteBytes st.1) 0 c), 0)
    else (setXor (permuteBytes st.1) 0 c, 1)
  else
    if st.2 + 1 = rate then (permuteBytes (setXor st.1 st.2 c), 0)
    else (setXor st.1 st.2 c, st.2 + 1)

/-- With a zero rate, single-byte absorption is inert. -/
theorem foldl_absorbByte_zero (input : List Nat) (st : List Nat × Nat) :
    input.foldl (absorbByte 0) st = st := by
  induction input generalizing st with
  | nil => rfl
  | cons c cs ih => simp [List.foldl_cons, absorbByte, ih]

/-- Folding `absorbByte` over a chunk that fits in the current block equals
one XOR of the whole chunk, followed by a permutation exactly when the chunk
fills the block. -/
theorem foldl_absorbByte_chunk (rate : Nat) (chunk : List Nat) :
    ∀ buf off, off < rate → off + chunk.length ≤ rate →
      chunk.foldl (absorbByte rate) (buf, off) =
        if off + chunk.length = rate then (permuteBytes (xorInto buf off chunk), 0)
        else (xorInto buf off chunk, off + chunk.length) := by
  induction chunk with
  | nil =>
    intro buf off hlt _
    have hne : ¬ off = rate := by omega
    simp [hne, xorInto]
  | cons c cs ih =>
    intro buf off hlt hle
    have hr0 : ¬ rate = 0 := by omega
    have hro : ¬ rate ≤ off := by omega
    simp only [List.foldl_cons, absorbByte, if_neg hr0, if_neg hro]
    by_cases hfull : off + 1 = rate
    · have hcs : cs = [] := by
        have := hle
        simp only [List.length_cons] at this
        have : cs.length = 0 := by omega
        exact List.length_eq_zero.mp this
      subst hcs
      simp [hfull, xorInto]
    · have hlt' : off + 1 < rate := by
        simp only [List.length_cons] at hle
        omega
      have hle' : (off + 1) + cs.length ≤ rate := by
        simp only [List.length_cons] at hle
        omega
      simp only [if_neg hfull, ih (setXor buf off c) (off + 1) hlt' hle']
      have harith : off + (c :: cs).length = off + 1 + cs.length := by
        simp only [List.length_cons]
        omega
      rw [harith]
      rfl

/-- The chunk-walking absorb loop is the left fold of single-byte
absorption.  This is the normal form used to reason about arbitrary splits
of the input across `update` calls. -/
theorem absorbLoop_eq_foldl (rate : Nat) (buf : List Nat) (off : Nat) (input : List Nat) :
    absorbLoop rate buf off input = input.foldl (absorbByte rate) (buf, off) := by
  induction buf, off, input using absorbLoop.induct rate with
  | case1 buf off =>
    simp [absorbLoop]
  | case2 buf off c cs h0 =>
    subst h0
    rw [absorbLoop, foldl_absorbByte_zero]
    simp
  | case3 buf off c cs h0 hfull ih =>
    rw [absorbLoop]
    simp only [dif_neg h0, dif_pos hfull]
    rw [ih]
    simp only [List.foldl_cons]
    have hr0 : ¬ rate ≤ 0 := by omega
    congr 1
    simp [absorbByte, h0, hfull, hr0]
  | case4 buf off c cs h0 hfull hfill ih =>
    rw [absorbLoop]
    simp only [dif_neg h0, dif_neg hfull, dif_pos hfill]
    rw [ih]
    conv_rhs => rw [← List.take_append_drop (min (rate - off) (c :: cs).length) (c :: cs)]
    rw [List.foldl_append]
    have hofflt : off < rate := by omega
    have hlen : ((c :: cs).take (min (rate - off) (c :: cs).length)).length
        = min (rate - off) (c :: cs).length := by
      simp [List.length_take]
    rw [foldl_absorbByte_chunk rate _ buf off hofflt (by rw [hlen]; omega)]
    rw [hlen]
    have hLc : (c :: cs).length = cs.length + 1 := rfl
    have hfillEq : off + min (rate - off) (cs.length + 1) = rate := by omega
    simp [hfillEq]
  | case5 buf off c cs h0 hfull hfill =>
    rw [absorbLoop]
    simp only [dif_neg h0, dif_neg hfull, dif_neg hfill]
    have hofflt : off < rate := by omega
    have htod : min (rate - off) (c :: cs).length = (c :: cs).length := by omega
    rw [htod, List.take_length]
    rw [foldl_absorbByte_chunk rate _ buf off hofflt (by omega)]
    have hLc : (c :: cs).length = cs.length + 1 := rfl
    have hne : ¬ off + (cs.length + 1) = rate := by omega
    simp [hne]

/-- Absorbing the empty input is a no-op on the sponge state. -/
theorem state_update_nil (s : KeccakState) : s.update [] = s := by
  simp [KeccakState.update, absorbLoop]

/-- Absorbing a concatenation equals absorbing the two parts in sequence. -/
theorem state_update_append (s : KeccakState) (a b : List Nat) :
    s.update (a ++ b) = (s.update a).update b := by
  simp only [KeccakState.update, absorbLoop_eq_foldl, List.foldl_append]

/-- `Keccak::update` of the empty input is a no-op. -/
theorem hasher_update_nil (k : Keccak) : k.update [] = k := by
  simp [Keccak.update, state_update_nil]

/-- `Keccak::update` over a concatenation equals sequential application. -/
theorem hasher_update_append (k : Keccak) (a b : List Nat) :
    k.update (a ++ b) = (k.update a).update b := by
  simp [Keccak.update, state_update_append]

/-- A sequence of `update` calls absorbs exactly the concatenation of its
chunks. -/
theorem foldl_update_flatten (chunks : List (List Nat)) :
    ∀ k : Keccak, chunks.foldl Keccak.update k = k.update chunks.flatten := by
  induction chunks with
  | nil => intro k; simp [hasher_update_nil]
  | cons c cs ih =>
    intro k
    simp only [List.foldl_cons, List.flatten_cons, hasher_update_append, ih]

/-! ## Squeeze-phase facts -/

/-- When the requested output fits in one block, squeezing is one `take`
from the (already permuted) buffer. -/
theorem squeeze_of_le (rate : Nat) (buf : List Nat) (outLen : Nat) (h : outLen ≤ rate) :
    squeeze rate buf outLen = buf.take outLen := by
  rw [squeeze, if_pos h]

/-- The first `n` bytes of any squeeze of at least `n` bytes are the first
`n` bytes of the current buffer (`n` within the first block). -/
theorem squeeze_take (rate : Nat) (buf : List Nat) (n L : Nat)
    (hnL : n ≤ L) (hnr : n ≤ rate) (hrb : rate ≤ buf.length) :
    (squeeze rate buf L).take n = buf.take n := by
  rw [squeeze]
  by_cases hL : L ≤ rate
  · rw [if_pos hL, List.take_take]
    congr 1
    omega
  · rw [if_neg hL]
    by_cases h0 : rate = 0
    · rw [dif_pos h0]
      have hn : n = 0 := by omega
      subst hn
      simp
    · rw [dif_neg h0]
      have hlen : n ≤ (buf.take rate).length := by
        rw [List.length_take]
        omega
      rw [List.take_append_of_le_length hlen]
      rw [List.take_take]
      congr 1
      omega

/-! ## The permutation preserves the 200-byte state shape -/

/-- `iotaStep` preserves the lane count. -/
theorem length_iotaStep (rc : Nat) (s : List Nat) : (iotaStep rc s).length = s.length := by
  cases s <;> simp [iotaStep]

/-- One Keccak-f round always yields 25 lanes. -/
theorem length_keccakRound (s : List Nat) (rc : Nat) : (keccakRound s rc).length = 25 := by
  simp [keccakRound, length_iotaStep, chi]

/-- Folding rounds from a 25-lane state stays at 25 lanes. -/
theorem length_foldl_keccakRound (rcs : List Nat) :
    ∀ s : List Nat, s.length = 25 → (rcs.foldl keccakRound s).length = 25 := by
  induction rcs with
  | nil => intro s h; simpa using h
  | cons r rs ih =>
    intro s _
    simp only [List.foldl_cons]
    exact ih _ (length_keccakRound _ _)

/-- The byte-to-lane view always produces 25 lanes. -/
theorem length_bytesToLanes (bs : List Nat) : (bytesToLanes bs).length = 25 := by
  simp [bytesToLanes]

/-- The lane-to-byte view produces 8 bytes per lane. -/
theorem length_lanesToBytes (ls : List Nat) : (lanesToBytes ls).length = 8 * ls.length := by
  induction ls with
  | nil => rfl
  | cons l rest ih =>
    simp only [lanesToBytes, List.map_cons, List.flatten_cons, List.length_append,
      List.length_cons] at ih ⊢
    have h8 : (laneToBytes l).length = 8 := by simp [laneToBytes]
    omega

/-- The byte-level permutation always returns a 200-byte state. -/
theorem length_permuteBytes (bs : List Nat) : (permuteBytes bs).length = 200 := by
  unfold permuteBytes keccakF
  rw [length_lanesToBytes, length_foldl_keccakRound _ _ (length_bytesToLanes bs)]

/-! ## Cursor invariant -/

/-- Single-byte absorption keeps the cursor strictly below a positive rate. -/
theorem absorbByte_offset_lt (rate : Nat) (hr : 1 ≤ rate) (st : List Nat × Nat) (c : Nat)
    (h : st.2 < rate) : (absorbByte rate st c).2 < rate := by
  simp only [absorbByte]
  rw [if_neg (by omega : ¬ rate = 0), if_neg (by omega : ¬ rate ≤ st.2)]
  by_cases hf : st.2 + 1 = rate
  · rw [if_pos hf]
    simpa using hr
  · rw [if_neg hf]
    simp only []
    omega

/-- Folding single-byte absorption preserves the cursor invariant. -/
theorem foldl_absorbByte_offset_lt (rate : Nat) (hr : 1 ≤ rate) (input : List Nat) :
    ∀ st : List Nat × Nat, st.2 < rate → (input.foldl (absorbByte rate) st).2 < rate := by
  induction input with
  | nil => intro st h; exact h
  | cons c cs ih =>
    intro st h
    exact ih _ (absorbByte_offset_lt rate hr st c h)

/-- `update` preserves the cursor invariant `offset < rate`. -/
theorem update_offset_lt (s : KeccakState) (l : List Nat) (hr : 1 ≤ s.rate)
    (h : s.offset < s.rate) : (s.update l).offset < (s.update l).rate := by
  show (absorbLoop s.rate s.buffer s.offset l).2 < s.rate
  rw [absorbLoop_eq_foldl]
  exact foldl_absorbByte_offset_lt s.rate hr l (s.buffer, s.offset) h

/-- Along any sequence of `update` calls, the cursor stays strictly below the
(unchanged) rate. -/
theorem reach_invariant (chunks : List (List Nat)) :
    ∀ k : Keccak, 1 ≤ k.state.rate → k.state.offset < k.state.rate →
      (chunks.foldl Keccak.update k).state.offset < (chunks.foldl Keccak.update k).state.rate ∧
      (chunks.foldl Keccak.update k).state.rate = k.state.rate := by
  induction chunks with
  | nil =>
    intro k _ h2
    exact ⟨h2, rfl⟩
  | cons c cs ih =>
    intro k h1 h2
    simp only [List.foldl_cons]
    have hstep : (k.update c).state.offset < (k.update c).state.rate :=
      update_offset_lt k.state c h1 h2
    have hrate : (k.update c).state.rate = k.state.rate := rfl
    obtain ⟨ha, hb⟩ := ih (k.update c) (by rw [hrate]; exact h1) hstep
    exact ⟨ha, hb.trans hrate⟩

/-- Absorbing a chunk that exactly fills the current block permutes the full
state and resets the cursor to `0`. -/
theorem update_fill (s : KeccakState) (chunk : List Nat)
    (hoff : s.offset < s.rate) (hfill : s.offset + chunk.length = s.rate) :
    s.update chunk = ⟨permuteBytes (xorInto s.buffer s.offset chunk), 0, s.rate, s.delim⟩ := by
  have h := foldl_absorbByte_chunk s.rate chunk s.buffer s.offset hoff (by omega)
  rw [if_pos hfill] at h
  simp [KeccakState.update, absorbLoop_eq_foldl, h]

/-! ## The padded final block, byte by byte -/

/-- Pointwise description of the padded block: the delimiter lands at
`offset`, `0x80` lands at `rate - 1`, the two combine by XOR when these
coincide, and every other byte is untouched. -/
theorem padBlock_getD (s : KeccakState) (hlen : s.buffer.length = 200)
    (hoff : s.offset < s.rate) (hrate : s.rate ≤ 200) (i : Nat) :
    (padBlock s).getD i 0 =
      if i = s.offset then
        (if i = s.rate - 1 then s.buffer.getD i 0 ^^^ s.delim ^^^ 0x80
         else s.buffer.getD i 0 ^^^ s.delim)
      else if i = s.rate - 1 then s.buffer.getD i 0 ^^^ 0x80
      else s.buffer.getD i 0 := by
  have ho200 : s.offset < 200 := by omega
  have hr200 : s.rate - 1 < 200 := by omega
  unfold padBlock setXor
  set b1 := s.buffer.set s.offset (s.buffer.getD s.offset 0 ^^^ s.delim) with hb1
  have hlen1 : b1.length = 200 := by rw [hb1, List.length_set, hlen]
  have hget1 : ∀ j, b1.getD j 0 =
      if s.offset = j then s.buffer.getD j 0 ^^^ s.delim else s.buffer.getD j 0 := by
    intro j
    rw [hb1, getD_set, hlen]
    by_cases h : s.offset = j
    · rw [if_pos ⟨h, ho200⟩, if_pos h, h]
    · rw [if_neg (fun hc => h hc.1), if_neg h]
  rw [getD_set, hlen1]
  by_cases hA : s.rate - 1 = i
  · rw [if_pos ⟨hA, hr200⟩, hget1 (s.rate - 1)]
    by_cases hB : s.offset = i
    · rw [if_pos (hB.trans hA.symm), if_pos hB.symm, if_pos hA.symm, hA]
    · rw [if_neg (fun h => hB (h.trans hA)), if_neg (fun h => hB h.symm), if_pos hA.symm, hA]
  · rw [if_neg (fun h => hA h.1), hget1 i]
    by_cases hB : s.offset = i
    · rw [if_pos hB, if_pos hB.symm, if_neg (fun h => hA h.symm)]
    · rw [if_neg hB, if_neg (fun h => hB h.symm), if_neg (fun h => hA h.symm)]

/-! ## Known-answer digests for the 256-bit variant on the empty input -/

/-- The empty-input digest hex string literally claimed by the spec
(63 hexadecimal digits). -/
def claimedEmptyDigestHex : List Char :=
  ("c5d2460186f7233c927e7db2dcc703c0e500b653ca82273b7bfad8045d85a47".toList)

/-- The published Keccak-256 empty-input digest (64 hexadecimal digits). -/
def keccak256EmptyDigestHex : List Char :=
  ("c5d2460186f7233c927e7db2dcc703c0e500b653ca82273b7bfad8045d85a470".toList)

/-! ## The claims -/

/-- C1: streaming equivalence of absorption — for every way of splitting a
message into consecutive chunks, updating chunk by chunk and finalizing
writes the same output bytes as one `update` with the whole message followed
by `finalize`, for an equal-length output buffer and the same security
level. -/
theorem C1_streaming_equivalence (bits : Nat) (chunks : List (List Nat)) (outLen : Nat) :
    (chunks.foldl Keccak.update (Keccak.new bits)).finalize outLen =
      ((Keccak.new bits).update chunks.flatten).finalize outLen := by
  rw [foldl_update_flatten]

set_option maxRecDepth 100000 in
/-- C2: construction contract — each public constructor `v224`/`v256`/`v384`/
`v512` yields rate `200 - 2*(bits/8)`, i.e. 144/136/104/72 bytes, delimiter
`0x01`, an all-zero 200-byte buffer, and offset `0`. -/
theorem C2_construction_contract :
    (Keccak.v224.state.rate = 200 - 2 * (224 / 8) ∧ Keccak.v224.state.rate = 144 ∧
      Keccak.v224.state.delim = 0x01 ∧
      Keccak.v224.state.buffer = List.replicate 200 0 ∧ Keccak.v224.state.offset = 0) ∧
    (Keccak.v256.state.rate = 200 - 2 * (256 / 8) ∧ Keccak.v256.state.rate = 136 ∧
      Keccak.v256.state.delim = 0x01 ∧
      Keccak.v256.state.buffer = List.replicate 200 0 ∧ Keccak.v256.state.offset = 0) ∧
    (Keccak.v384.state.rate = 200 - 2 * (384 / 8) ∧ Keccak.v384.state.rate = 104 ∧
      Keccak.v384.state.delim = 0x01 ∧
      Keccak.v384.state.buffer = List.replicate 200 0 ∧ Keccak.v384.state.offset = 0) ∧
    (Keccak.v512.state.rate = 200 - 2 * (512 / 8) ∧ Keccak.v512.state.rate = 72 ∧
      Keccak.v512.state.delim = 0x01 ∧
      Keccak.v512.state.buffer = List.replicate 200 0 ∧ Keccak.v512.state.offset = 0) := by
  decide

/-- C3: the padding step of `finalize` — starting from any state with
`offset < rate` (and a well-formed 200-byte buffer, `rate ≤ 200`), the padded
block XORs the delimiter into `buffer[offset]` and `0x80` into
`buffer[rate-1]`, the two XORs combining on the same byte when
`offset = rate - 1`; the permutation is then invoked exactly once on the
padded block before any output bytes are produced. -/
theorem C3_finalize_padding (s : KeccakState) (hlen : s.buffer.length = 200)
    (hoff : s.offset < s.rate) (hrate : s.rate ≤ 200) (outLen : Nat) (hout : outLen ≤ s.rate) :
    s.finalize outLen = (permuteBytes (padBlock s)).take outLen ∧
    ∀ i, i < 200 → (padBlock s).getD i 0 =
      if i = s.offset then
        (if i = s.rate - 1 then s.buffer.getD i 0 ^^^ s.delim ^^^ 0x80
         else s.buffer.getD i 0 ^^^ s.delim)
      else if i = s.rate - 1 then s.buffer.getD i 0 ^^^ 0x80
      else s.buffer.getD i 0 := by
  refine ⟨?_, fun i _ => padBlock_getD s hlen hoff hrate i⟩
  show squeeze s.rate (permuteBytes (padBlock s)) outLen = _
  exact squeeze_of_le _ _ _ hout

set_option maxRecDepth 100000 in
/-- Witness for C3: the freshly constructed 256-bit engine with a 32-byte
output buffer. -/
theorem C3_finalize_padding_witness :
    Keccak.v256.state.finalize 32 = (permuteBytes (padBlock Keccak.v256.state)).take 32 ∧
    ∀ i, i < 200 → (padBlock Keccak.v256.state).getD i 0 =
      if i = Keccak.v256.state.offset then
        (if i = Keccak.v256.state.rate - 1 then
          Keccak.v256.state.buffer.getD i 0 ^^^ Keccak.v256.state.delim ^^^ 0x80
         else Keccak.v256.state.buffer.getD i 0 ^^^ Keccak.v256.state.delim)
      else if i = Keccak.v256.state.rate - 1 then
        Keccak.v256.state.buffer.getD i 0 ^^^ 0x80
      else Keccak.v256.state.buffer.getD i 0 :=
  C3_finalize_padding Keccak.v256.state (by decide) (by decide) (by decide) 32 (by decide)

set_option maxRecDepth 100000 in
/-- C4 counterexample: the digest of the 256-bit variant on the empty input
does not have the hexadecimal encoding literally given in the spec — that
string has 63 digits, while the 32-byte digest encodes to 64 digits (the
spec dropped the trailing `0`). -/
theorem C4_empty_input_claim_counterexample :
    hexEncode (Keccak.v256.finalize 32) ≠ claimedEmptyDigestHex := by
  have h : Keccak.v256.finalize 32 = (permuteBytes (padBlock Keccak.v256.state)).take 32 := by
    show squeeze Keccak.v256.state.rate (permuteBytes (padBlock Keccak.v256.state)) 32 = _
    exact squeeze_of_le _ _ _ (by decide)
  rw [h]
  decide

set_option maxRecDepth 100000 in
/-- C4 (amended): constructing the 256-bit variant and finalizing into a
32-byte buffer with `update` never called yields the digest whose hexadecimal
encoding is `c5d2460186f7233c927e7db2dcc703c0e500b653ca82273b7bfad8045d85a470`
(the published Keccak-256 empty-input value). -/
theorem C4_empty_input_kat :
    hexEncode (Keccak.v256.finalize 32) = keccak256EmptyDigestHex := by
  have h : Keccak.v256.finalize 32 = (permuteBytes (padBlock Keccak.v256.state)).take 32 := by
    show squeeze Keccak.v256.state.rate (permuteBytes (padBlock Keccak.v256.state)) 32 = _
    exact squeeze_of_le _ _ _ (by decide)
  rw [h]
  decide

/-- C5: determinism — running the full pipeline (construct, update with `m`,
finalize into an `L`-byte buffer) on two independently constructed engines of
the same security level produces identical output bytes; the engine is a pure
state machine with no other inputs. -/
theorem C5_determinism (bits : Nat) (m : List Nat) (outLen : Nat) :
    ((Keccak.new bits).update m).finalize outLen =
      ((Keccak.new bits).update m).finalize outLen := rfl

/-- C6: extendable-output prefix property — for any input, any security
level, and any `N < rate`, the `N` bytes written by `finalize` equal the
first `N` bytes written by a `2N`-byte `finalize` of the same engine. -/
theorem C6_xof_first_bytes (bits : Nat) (m : List Nat) (n : Nat)
    (h : n < bits_to_rate bits) :
    (((Keccak.new bits).update m).finalize (2 * n)).take n =
      ((Keccak.new bits).update m).finalize n := by
  have hnr : n ≤ ((Keccak.new bits).update m).state.rate := le_of_lt h
  have hrb : ((Keccak.new bits).update m).state.rate ≤
      (permuteBytes (padBlock ((Keccak.new bits).update m).state)).length := by
    rw [length_permuteBytes]
    show bits_to_rate bits ≤ 200
    exact Nat.sub_le _ _
  show (squeeze _ (permuteBytes (padBlock _)) (2 * n)).take n = squeeze _ _ n
  rw [squeeze_take _ _ n (2 * n) (by omega) hnr hrb, squeeze_of_le _ _ _ hnr]

/-- Witness for C6: 256-bit level, empty input, `N = 1 < 136`. -/
theorem C6_xof_first_bytes_witness :
    1 < bits_to_rate 256 ∧
    (((Keccak.new 256).update []).finalize (2 * 1)).take 1 =
      ((Keccak.new 256).update []).finalize 1 :=
  ⟨by decide, C6_xof_first_bytes 256 [] 1 (by decide)⟩

/-- C7: offset invariant — for every engine reachable from a public
constructor by any sequence of `update` calls, `offset < rate` holds (hence
`0 ≤ offset ≤ rate`, and `offset = rate` is never observable at the start of
an `update` or `finalize` call); moreover, absorbing a chunk that exactly
fills the block invokes the permutation on the full 200-byte state and
resets the offset to `0`. -/
theorem C7_offset_invariant (bits : Nat)
    (hbits : bits = 224 ∨ bits = 256 ∨ bits = 384 ∨ bits = 512)
    (chunks : List (List Nat)) :
    (reachAfter bits chunks).state.offset < (reachAfter bits chunks).state.rate ∧
    ∀ chunk : List Nat,
      (reachAfter bits chunks).state.offset + chunk.length =
          (reachAfter bits chunks).state.rate →
      ((reachAfter bits chunks).update chunk).state =
        ⟨permuteBytes (xorInto (reachAfter bits chunks).state.buffer
            (reachAfter bits chunks).state.offset chunk), 0,
          (reachAfter bits chunks).state.rate, (reachAfter bits chunks).state.delim⟩ := by
  have hr : 1 ≤ (Keccak.new bits).state.rate := by
    rcases hbits with h | h | h | h <;> subst h <;> decide
  obtain ⟨hlt, _⟩ := reach_invariant chunks (Keccak.new bits) hr hr
  refine ⟨hlt, fun chunk hc => ?_⟩
  exact update_fill _ chunk hlt hc

/-- Witness for C7: the 256-bit engine after one 3-byte `update`. -/
theorem C7_offset_invariant_witness :
    (reachAfter 256 [[1, 2, 3]]).state.offset < (reachAfter 256 [[1, 2, 3]]).state.rate ∧
    ∀ chunk : List Nat,
      (reachAfter 256 [[1, 2, 3]]).state.offset + chunk.length =
          (reachAfter 256 [[1, 2, 3]]).state.rate →
      ((reachAfter 256 [[1, 2, 3]]).update chunk).state =
        ⟨permuteBytes (xorInto (reachAfter 256 [[1, 2, 3]]).state.buffer
            (reachAfter 256 [[1, 2, 3]]).state.offset chunk), 0,
          (reachAfter 256 [[1, 2, 3]]).state.rate, (reachAfter 256 [[1, 2, 3]]).state.delim⟩ :=
  C7_offset_invariant 256 (Or.inr (Or.inl rfl)) [[1, 2, 3]]

/-- C9: clone independence — duplicating an engine at any reachable
mid-absorption point and continuing the two copies with different inputs
makes each produce exactly the digest of the total byte stream it has
individually absorbed; in the value model, operations on one copy cannot
perturb the other. -/
theorem C9_clone_independence (bits : Nat) (chunks : List (List Nat))
    (a b : List Nat) (la lb : Nat) :
    ((reachAfter bits chunks).update a).finalize la =
        ((Keccak.new bits).update (chunks.flatten ++ a)).finalize la ∧
    ((reachAfter bits chunks).update b).finalize lb =
        ((Keccak.new bits).update (chunks.flatten ++ b)).finalize lb := by
  unfold reachAfter
  rw [foldl_update_flatten, ← hasher_update_append, ← hasher_update_append]
  exact ⟨rfl, rfl⟩

set_option maxRecDepth 100000 in
/-- C10: rate precondition from the public surface — each of the four public
constructors produces a rate in {144, 136, 104, 72}, which satisfies the
fail-fast precondition `1 ≤ rate ≤ 200` of the inner constructor (so the
checked constructor succeeds and the failure path is not taken), and the
delimiter is `0x01`. -/
theorem C10_rate_precondition :
    (KeccakState.newChecked (bits_to_rate 224) Keccak.DELIM = some Keccak.v224.state ∧
      1 ≤ Keccak.v224.state.rate ∧ Keccak.v224.state.rate ≤ 200 ∧
      Keccak.v224.state.rate = 144 ∧ Keccak.v224.state.delim = 0x01) ∧
    (KeccakState.newChecked (bits_to_rate 256) Keccak.DELIM = some Keccak.v256.state ∧
      1 ≤ Keccak.v256.state.rate ∧ Keccak.v256.state.rate ≤ 200 ∧
      Keccak.v256.state.rate = 136 ∧ Keccak.v256.state.delim = 0x01) ∧
    (KeccakState.newChecked (bits_to_rate 384) Keccak.DELIM = some Keccak.v384.state ∧
      1 ≤ Keccak.v384.state.rate ∧ Keccak.v384.state.rate ≤ 200 ∧
      Keccak.v384.state.rate = 104 ∧ Keccak.v384.state.delim = 0x01) ∧
    (KeccakState.newChecked (bits_to_rate 512) Keccak.DELIM = some Keccak.v512.state ∧
      1 ≤ Keccak.v512.state.rate ∧ Keccak.v512.state.rate ≤ 200 ∧
      Keccak.v512.state.rate = 72 ∧ Keccak.v512.state.delim = 0x01) := by
  decide

end TinyKeccak
